import Mathlib

/-
  Verification of the resume-formatter specification for the
  AIResumeBuilder_Upgraded repository.

  The repository source under src/ contains only the Gradio UI wiring
  (main.py); the formatter generate_resume lives in interface.py, which is
  not part of src/.  The formatter is therefore modelled from the spec
  (section 4.1), while the UI click wiring is embedded from main.py.
  Strings are Lean Strings; the character-level helpers below work on the
  underlying List Char, where splitting and trimming are expressed by
  structural recursion so that every definition is executable.
-/

namespace ResumeBuilder

/-- Modelled from the spec: the comma-splitting step of skills parsing
(interface.py is absent from src/).  Accumulates the current token in
reverse; a comma emits the accumulated token and starts a new one. -/
def splitCommaAux : List Char → List Char → List (List Char)
  | [], acc => [acc.reverse]
  | c :: cs, acc =>
    if c = ',' then acc.reverse :: splitCommaAux cs []
    else splitCommaAux cs (c :: acc)

/-- Modelled from the spec: split a character list on commas. -/
def splitComma (l : List Char) : List (List Char) :=
  splitCommaAux l []

/-- Modelled from the spec: drop leading whitespace characters. -/
def trimLeft (l : List Char) : List Char :=
  l.dropWhile Char.isWhitespace

/-- Modelled from the spec: drop trailing whitespace characters. -/
def trimRight (l : List Char) : List Char :=
  (l.reverse.dropWhile Char.isWhitespace).reverse

/-- Modelled from the spec: trim surrounding whitespace from a token. -/
def trimChars (l : List Char) : List Char :=
  trimRight (trimLeft l)

/-- Modelled from the spec: skills parsing (interface.py is absent from
src/): split the skills string on commas, trim surrounding whitespace from
each token, preserve original order, drop tokens that become empty after
trimming. -/
def parseSkills (s : String) : List String :=
  (((splitComma s.data).map trimChars).filter (fun t => decide (t ≠ []))).map
    (fun t => String.mk t)

/-- Modelled from the spec: the template-style enumeration
{Classic, Modern, Creative}. -/
inductive TemplateStyle
  | classic
  | modern
  | creative

deriving instance DecidableEq for TemplateStyle

/-- Modelled from the spec: template-style resolution with the explicit
fallback policy — any style string other than the recognised "Modern" and
"Creative" (including "Classic" itself, the empty string and unknown
values) resolves to Classic. -/
def resolveStyle (s : String) : TemplateStyle :=
  if s = "Modern" then TemplateStyle.modern
  else if s = "Creative" then TemplateStyle.creative
  else TemplateStyle.classic

/-- Modelled from the spec: style-appropriate section headings — plain for
Classic, decorated for Modern, decorative markers for Creative. -/
def heading : TemplateStyle → String → String
  | TemplateStyle.classic, t => t ++ ":"
  | TemplateStyle.modern, t => "== " ++ t ++ " =="
  | TemplateStyle.creative, t => "~ " ++ t ++ " ~"

/-- Modelled from the spec: join a list of strings with ", " (used for the
Classic comma-joined skills line and as the join in the round-trip
property). -/
def joinComma : List String → String
  | [] => ""
  | [x] => x
  | x :: y :: t => x ++ ", " ++ joinComma (y :: t)

/-- Modelled from the spec: join a list of strings with newlines (used for
the bulleted skill lists of Modern and Creative). -/
def joinLines : List String → String
  | [] => ""
  | [x] => x
  | x :: y :: t => x ++ "\n" ++ joinLines (y :: t)

/-- Modelled from the spec: render the parsed skill list — comma-joined
line for Classic, one-per-line "- " bullets for Modern, one-per-line "* "
bullets (a distinct marker) for Creative. -/
def renderSkills (st : TemplateStyle) (sk : List String) : String :=
  match st with
  | TemplateStyle.classic => joinComma sk
  | TemplateStyle.modern => joinLines (sk.map (fun s => "- " ++ s))
  | TemplateStyle.creative => joinLines (sk.map (fun s => "* " ++ s))

/-- Modelled from the spec: the flat input record of six text fields plus
the style selection. -/
structure ResumeInput where
  name : String
  email : String
  phone : String
  skills : String
  experience : String
  education : String
  templateStyle : String

deriving instance DecidableEq for ResumeInput

/-- Modelled from the spec: the contact line combining email and phone. -/
def contactLine (r : ResumeInput) : String :=
  r.email ++ " | " ++ r.phone

/-- Modelled from the spec: the formatter format(input) (generate_resume of
interface.py, absent from src/) — a single string containing, in fixed
order, the header (name then contact line), then the skills, experience
and education sections, each preceded by a style-appropriate heading. -/
def format (r : ResumeInput) : String :=
  r.name ++ "\n" ++ contactLine r ++ "\n\n"
    ++ heading (resolveStyle r.templateStyle) "Skills" ++ "\n"
    ++ renderSkills (resolveStyle r.templateStyle) (parseSkills r.skills) ++ "\n\n"
    ++ heading (resolveStyle r.templateStyle) "Experience" ++ "\n"
    ++ r.experience ++ "\n\n"
    ++ heading (resolveStyle r.templateStyle) "Education" ++ "\n"
    ++ r.education ++ "\n"

/-- The style-independent content of the output: which field values are
included and in which order (header name, contact line, parsed skills,
experience, education). -/
def contentFields (r : ResumeInput) :
    String × String × List String × String × String :=
  (r.name, contactLine r, parseSkills r.skills, r.experience, r.education)

/-- The ordered pieces the formatted output must contain: name, contact
line, and the three sections each preceded by its heading. -/
def sectionPieces (r : ResumeInput) : List String :=
  [r.name, contactLine r,
   heading (resolveStyle r.templateStyle) "Skills",
   renderSkills (resolveStyle r.templateStyle) (parseSkills r.skills),
   heading (resolveStyle r.templateStyle) "Experience",
   r.experience,
   heading (resolveStyle r.templateStyle) "Education",
   r.education]

/-- Substring containment: pat occurs verbatim somewhere in s. -/
def strContains (s pat : String) : Prop :=
  ∃ pre post, s = pre ++ pat ++ post

/-- Ordered containment: the given pieces occur verbatim in s, in the given
order, without overlapping. -/
def containsInOrder : String → List String → Prop
  | _, [] => True
  | s, p :: ps => ∃ pre rest, s = pre ++ p ++ rest ∧ containsInOrder rest ps

/-- State of the Gradio UI of main.py: the seven input widgets and the
output textbox. -/
structure UIState where
  name : String
  email : String
  phone : String
  skills : String
  experience : String
  education : String
  template : String
  output : String

/-- Embedded from main.py lines 26-30: the Generate button's click event
calls fn (generate_resume) on the seven input values in the order
[name, email, phone, skills, experience, education, template] and writes
the returned string to the output textbox, leaving all other state
unchanged. -/
def generate_btn_click
    (fn : String → String → String → String → String → String → String → String)
    (st : UIState) : UIState :=
  { st with
      output := fn st.name st.email st.phone st.skills st.experience
        st.education st.template }

/-- Character-level counterpart of joinComma, used to reason about the
round-trip property of skills parsing. -/
def joinCharss : List (List Char) → List Char
  | [] => []
  | [x] => x
  | x :: y :: t => x ++ ',' :: ' ' :: joinCharss (y :: t)

/-- The concrete example input of spec section 8. -/
def janeDoe : ResumeInput :=
  ⟨"Jane Doe", "jane@x.com", "555-1234", "Python, SQL, Go",
   "Engineer at Acme", "BSc CS", "Modern"⟩

theorem str_empty_append (s : String) : "" ++ s = s := rfl

theorem cio_skip (a s : String) (ps : List String)
    (h : containsInOrder s ps) : containsInOrder (a ++ s) ps := by
  cases ps with
  | nil => trivial
  | cons p ps =>
    obtain ⟨pre, rest, heq, hrec⟩ := h
    exact ⟨a ++ pre, rest, by rw [heq]; simp [String.append_assoc], hrec⟩

theorem cio_here (p s : String) (ps : List String)
    (h : containsInOrder s ps) : containsInOrder (p ++ s) (p :: ps) :=
  ⟨"", s, rfl, h⟩

theorem format_eq (r : ResumeInput) :
    format r
      = r.name ++ ("\n" ++ (contactLine r ++ ("\n\n"
        ++ (heading (resolveStyle r.templateStyle) "Skills" ++ ("\n"
        ++ (renderSkills (resolveStyle r.templateStyle) (parseSkills r.skills)
        ++ ("\n\n"
        ++ (heading (resolveStyle r.templateStyle) "Experience" ++ ("\n"
        ++ (r.experience ++ ("\n\n"
        ++ (heading (resolveStyle r.templateStyle) "Education" ++ ("\n"
        ++ (r.education ++ "\n")))))))))))))) := by
  simp [format, String.append_assoc]

theorem format_pieces (r : ResumeInput) :
    containsInOrder (format r) (sectionPieces r) := by
  rw [format_eq]
  simp only [sectionPieces]
  apply cio_here
  apply cio_skip
  apply cio_here
  apply cio_skip
  apply cio_here
  apply cio_skip
  apply cio_here
  apply cio_skip
  apply cio_here
  apply cio_skip
  apply cio_here
  apply cio_skip
  apply cio_here
  apply cio_skip
  apply cio_here
  trivial

theorem splitCommaAux_ne_nil (l acc : List Char) : splitCommaAux l acc ≠ [] := by
  induction l generalizing acc with
  | nil => simp [splitCommaAux]
  | cons c cs ih =>
    by_cases hc : c = ','
    · simp [splitCommaAux, hc]
    · simp only [splitCommaAux, if_neg hc]
      exact ih (c :: acc)

theorem splitComma_ne_nil (l : List Char) : splitComma l ≠ [] :=
  splitCommaAux_ne_nil l []

theorem splitCommaAux_acc (l acc : List Char) :
    splitCommaAux l acc
      = List.modifyHead (fun t => acc.reverse ++ t) (splitComma l) := by
  induction l generalizing acc with
  | nil => simp [splitCommaAux, splitComma]
  | cons c cs ih =>
    by_cases hc : c = ','
    · simp [splitCommaAux, splitComma, hc]
    · simp only [splitCommaAux, splitComma, if_neg hc]
      rw [ih (c :: acc), ih [c]]
      obtain ⟨s, ss, hs⟩ : ∃ s ss, splitComma cs = s :: ss := by
        cases h : splitComma cs with
        | nil => exact absurd h (splitComma_ne_nil cs)
        | cons s ss => exact ⟨s, ss, rfl⟩
      rw [hs]
      simp

theorem splitComma_cons_of_ne (c : Char) (m : List Char) (hc : c ≠ ',') :
    splitComma (c :: m) = List.modifyHead (fun t => c :: t) (splitComma m) := by
  simp only [splitComma, splitCommaAux, if_neg hc]
  rw [splitCommaAux_acc m [c]]
  rfl

theorem splitComma_append_comma (xs m : List Char) (h : ∀ c ∈ xs, c ≠ ',') :
    splitComma (xs ++ ',' :: m) = xs :: splitComma m := by
  induction xs with
  | nil => simp [splitComma, splitCommaAux]
  | cons c cs ih =>
    have hc : c ≠ ',' := h c (List.mem_cons_self c cs)
    rw [List.cons_append, splitComma_cons_of_ne c _ hc,
      ih (fun d hd => h d (List.mem_cons_of_mem c hd))]
    rfl

theorem splitComma_of_no_comma (xs : List Char) (h : ∀ c ∈ xs, c ≠ ',') :
    splitComma xs = [xs] := by
  induction xs with
  | nil => rfl
  | cons c cs ih =>
    have hc : c ≠ ',' := h c (List.mem_cons_self c cs)
    rw [splitComma_cons_of_ne c cs hc,
      ih (fun d hd => h d (List.mem_cons_of_mem c hd))]
    rfl

theorem splitCommaAux_no_comma (l : List Char) :
    ∀ acc, (∀ c ∈ acc, c ≠ ',') → ∀ p ∈ splitCommaAux l acc, ',' ∉ p := by
  induction l with
  | nil =>
    intro acc hacc p hp
    simp only [splitCommaAux, List.mem_singleton] at hp
    subst hp
    intro hmem
    exact hacc ',' (List.mem_reverse.mp hmem) rfl
  | cons c cs ih =>
    intro acc hacc p hp
    by_cases hc : c = ','
    · simp only [splitCommaAux, if_pos hc, List.mem_cons] at hp
      rcases hp with hp | hp
      · subst hp
        intro hmem
        exact hacc ',' (List.mem_reverse.mp hmem) rfl
      · exact ih [] (by simp) p hp
    · simp only [splitCommaAux, if_neg hc] at hp
      refine ih (c :: acc) ?_ p hp
      intro d hd
      rcases List.mem_cons.mp hd with hd | hd
      · exact hd ▸ hc
      · exact hacc d hd

theorem splitComma_no_comma_mem (l : List Char) :
    ∀ p ∈ splitComma l, ',' ∉ p :=
  splitCommaAux_no_comma l [] (by simp)

theorem intercalate_singleton (s x : List Char) :
    List.intercalate s [x] = x := by
  simp [List.intercalate]

theorem intercalate_cons_cons (s x y : List Char) (t : List (List Char)) :
    List.intercalate s (x :: y :: t) = x ++ s ++ List.intercalate s (y :: t) := by
  simp [List.intercalate, List.append_assoc]

theorem splitCommaAux_intercalate (l : List Char) :
    ∀ acc, List.intercalate [','] (splitCommaAux l acc) = acc.reverse ++ l := by
  induction l with
  | nil =>
    intro acc
    simp [splitCommaAux, intercalate_singleton]
  | cons c cs ih =>
    intro acc
    by_cases hc : c = ','
    · subst hc
      have hstep : splitCommaAux (',' :: cs) acc = acc.reverse :: splitCommaAux cs [] := by
        simp [splitCommaAux]
      rw [hstep]
      obtain ⟨s, ss, hs⟩ : ∃ s ss, splitCommaAux cs [] = s :: ss := by
        cases h : splitCommaAux cs [] with
        | nil => exact absurd h (splitCommaAux_ne_nil cs [])
        | cons s ss => exact ⟨s, ss, rfl⟩
      rw [hs, intercalate_cons_cons, ← hs, ih []]
      simp
    · simp only [splitCommaAux, if_neg hc]
      rw [ih (c :: acc)]
      simp

theorem splitComma_intercalate (l : List Char) :
    List.intercalate [','] (splitComma l) = l := by
  simpa using splitCommaAux_intercalate l []

theorem trimLeft_cons_of_ws (c : Char) (m : List Char)
    (h : c.isWhitespace = true) : trimLeft (c :: m) = trimLeft m := by
  simp [trimLeft, List.dropWhile_cons, h]

theorem trimChars_cons_space (m : List Char) :
    trimChars (' ' :: m) = trimChars m := by
  unfold trimChars
  rw [trimLeft_cons_of_ws ' ' m rfl]

theorem trim_decomp (p : List Char) :
    ∃ a b, p = a ++ trimChars p ++ b
      ∧ (∀ c ∈ a, c.isWhitespace) ∧ (∀ c ∈ b, c.isWhitespace) := by
  refine ⟨p.takeWhile Char.isWhitespace,
    ((trimLeft p).reverse.takeWhile Char.isWhitespace).reverse, ?_, ?_, ?_⟩
  · have h1 : p = p.takeWhile Char.isWhitespace ++ trimLeft p :=
      (List.takeWhile_append_dropWhile (p := Char.isWhitespace) (l := p)).symm
    have h2 : trimLeft p
        = trimChars p ++ ((trimLeft p).reverse.takeWhile Char.isWhitespace).reverse := by
      conv_lhs =>
        rw [← List.reverse_reverse (trimLeft p),
          ← List.takeWhile_append_dropWhile (p := Char.isWhitespace)
            (l := (trimLeft p).reverse)]
      rw [List.reverse_append]
      rfl
    conv_lhs => rw [h1, h2]
    rw [List.append_assoc]
  · intro c hc
    exact List.mem_takeWhile_imp hc
  · intro c hc
    exact List.mem_takeWhile_imp (List.mem_reverse.mp hc)

theorem joinComma_data (l : List String) :
    (joinComma l).data = joinCharss (l.map String.data) := by
  induction l with
  | nil => rfl
  | cons x t ih =>
    cases t with
    | nil => rfl
    | cons y tt =>
      show (x ++ ", " ++ joinComma (y :: tt)).data = _
      rw [String.data_append, String.data_append, ih, List.append_assoc]
      rfl

theorem parse_join_chars (L : List (List Char))
    (hc : ∀ x ∈ L, ',' ∉ x) (hne : ∀ x ∈ L, x ≠ [])
    (ht : ∀ x ∈ L, trimChars x = x) :
    ((splitComma (joinCharss L)).map trimChars).filter
        (fun t => decide (t ≠ [])) = L := by
  induction L with
  | nil => rfl
  | cons x t ih =>
    cases t with
    | nil =>
      have hx : ∀ c ∈ x, c ≠ ',' := by
        intro c hcx
        intro hceq
        exact hc x (List.mem_singleton.mpr rfl) (hceq ▸ hcx)
      show ((splitComma x).map trimChars).filter (fun t => decide (t ≠ [])) = [x]
      rw [splitComma_of_no_comma x hx]
      simp only [List.map_cons, List.map_nil,
        ht x (List.mem_singleton.mpr rfl), List.filter]
      simp [hne x (List.mem_singleton.mpr rfl)]
    | cons y tt =>
      have hxmem : x ∈ x :: y :: tt := List.mem_cons_self x (y :: tt)
      have hcx : ∀ c ∈ x, c ≠ ',' := by
        intro c hcmem hceq
        exact hc x hxmem (hceq ▸ hcmem)
      have hjoin : joinCharss (x :: y :: tt)
          = x ++ ',' :: ' ' :: joinCharss (y :: tt) := rfl
      rw [hjoin, splitComma_append_comma x _ hcx,
        splitComma_cons_of_ne ' ' _ (by decide)]
      obtain ⟨s, ss, hs⟩ : ∃ s ss, splitComma (joinCharss (y :: tt)) = s :: ss := by
        cases h : splitComma (joinCharss (y :: tt)) with
        | nil => exact absurd h (splitComma_ne_nil _)
        | cons s ss => exact ⟨s, ss, rfl⟩
      have ihx := ih (fun z hz => hc z (List.mem_cons_of_mem x hz))
        (fun z hz => hne z (List.mem_cons_of_mem x hz))
        (fun z hz => ht z (List.mem_cons_of_mem x hz))
      rw [hs] at ihx ⊢
      simp only [List.modifyHead, List.map_cons, trimChars_cons_space,
        ht x hxmem, List.filter]
      simp only [List.map_cons, List.filter] at ihx
      simp only [hne x hxmem, decide_not]
      simp only [decide_not] at ihx
      simp only [ihx]
      simp [hne x hxmem]

theorem cio_strContains (s : String) (ps : List String) (p : String)
    (h : containsInOrder s ps) (hp : p ∈ ps) : strContains s p := by
  induction ps generalizing s with
  | nil => exact absurd hp (List.not_mem_nil p)
  | cons q qs ih =>
    obtain ⟨pre, rest, heq, hrec⟩ := h
    rcases List.mem_cons.mp hp with hpq | hpm
    · exact ⟨pre, rest, hpq ▸ heq⟩
    · obtain ⟨a, b, hab⟩ := ih rest hrec hpm
      exact ⟨pre ++ q ++ a, b, by rw [heq, hab]; simp [String.append_assoc]⟩

theorem cio_append_parts (x y : String) (ps rs : List String)
    (hx : containsInOrder x ps) (hy : containsInOrder y rs) :
    containsInOrder (x ++ y) (ps ++ rs) := by
  induction ps generalizing x with
  | nil => exact cio_skip x y rs hy
  | cons p ps ih =>
    obtain ⟨pre, rest, heq, hrec⟩ := hx
    exact ⟨pre, rest ++ y, by rw [heq]; simp [String.append_assoc], ih rest hrec⟩

theorem cio_expand (s : String) (ps : List String) (p : String)
    (qs rs : List String)
    (h : containsInOrder s (ps ++ p :: rs)) (hp : containsInOrder p qs) :
    containsInOrder s (ps ++ (qs ++ rs)) := by
  induction ps generalizing s with
  | nil =>
    obtain ⟨pre, rest, heq, hrest⟩ := h
    have hparts := cio_append_parts p rest qs rs hp hrest
    rw [heq, String.append_assoc]
    exact cio_skip pre (p ++ rest) (qs ++ rs) hparts
  | cons a ps ih =>
    obtain ⟨pre, rest, heq, hrest⟩ := h
    exact ⟨pre, rest, heq, ih rest hrest⟩

theorem resolveStyle_classic_lit : resolveStyle "Classic" = TemplateStyle.classic := by
  decide

theorem format_style_classic (r : ResumeInput)
    (h : resolveStyle r.templateStyle = TemplateStyle.classic) :
    format r = format { r with templateStyle := "Classic" } := by
  simp [format, contactLine, h, resolveStyle_classic_lit]

/-- Claim C1: for every ResumeInput and every template style, format returns
a single string containing, in fixed order, a header (the name and the
contact line combining email and phone), then a skills section, then an
experience section, then an education section, each preceded by a
style-appropriate heading; and changing only the template style changes
formatting markers only, never which fields are included or their order. -/
theorem claim_C1 (r : ResumeInput) (s1 s2 : String) :
    containsInOrder (format r) (sectionPieces r)
      ∧ contentFields { r with templateStyle := s1 }
          = contentFields { r with templateStyle := s2 } :=
  ⟨format_pieces r, rfl⟩

/-- Claim C2: skills parsing splits the skills string on commas (the split
pieces rejoin with "," to the original string and contain no comma), trims
surrounding whitespace from each token (trimChars removes exactly a
whitespace prefix and a whitespace suffix), preserves the original token
order (the result is a sublist of the trimmed pieces), and drops exactly
the tokens that become empty after trimming. -/
theorem claim_C2 (s : String) :
    List.intercalate [','] (splitComma s.data) = s.data
      ∧ (∀ p ∈ splitComma s.data, ',' ∉ p)
      ∧ (parseSkills s).map String.data
          = ((splitComma s.data).map trimChars).filter (fun t => decide (t ≠ []))
      ∧ (∀ p : List Char, ∃ a b, p = a ++ trimChars p ++ b
          ∧ (∀ c ∈ a, c.isWhitespace) ∧ (∀ c ∈ b, c.isWhitespace))
      ∧ ((parseSkills s).map String.data).Sublist
          ((splitComma s.data).map trimChars)
      ∧ (∀ t ∈ parseSkills s, t ≠ "") := by
  have hmapdata : (parseSkills s).map String.data
      = ((splitComma s.data).map trimChars).filter (fun t => decide (t ≠ [])) := by
    unfold parseSkills
    rw [List.map_map]
    have hid : (String.data ∘ fun t => String.mk t) = id := rfl
    rw [hid, List.map_id]
  refine ⟨splitComma_intercalate s.data, splitComma_no_comma_mem s.data,
    hmapdata, trim_decomp, ?_, ?_⟩
  · rw [hmapdata]
    exact List.filter_sublist _
  · intro t ht
    obtain ⟨u, hu, hmk⟩ := List.mem_map.mp ht
    intro h0
    have hu0 : u = [] := congrArg String.data (hmk.trans h0)
    have hfil := List.of_mem_filter hu
    rw [hu0] at hfil
    simp at hfil

/-- Witness for claim C2 at a concrete skills string. -/
theorem claim_C2_witness :
    ("Go" ∈ parseSkills " Python, SQL ,,Go") ∧ ("Go" : String) ≠ "" :=
  ⟨by decide, (claim_C2 " Python, SQL ,,Go").2.2.2.2.2 "Go" (by decide)⟩

/-- Claim C3: for every ResumeInput whose templateStyle is not one of
Classic, Modern or Creative (including the empty style), format returns
output identical to the output for the same input with templateStyle set
to Classic; format is a total function, so no exception is possible. -/
theorem claim_C3 (r : ResumeInput)
    (h : ¬ (r.templateStyle = "Classic" ∨ r.templateStyle = "Modern"
      ∨ r.templateStyle = "Creative")) :
    format r = format { r with templateStyle := "Classic" } := by
  push_neg at h
  obtain ⟨h1, h2, h3⟩ := h
  apply format_style_classic
  simp [resolveStyle, h2, h3]

/-- Witness for claim C3 at an unknown style string. -/
theorem claim_C3_witness :
    (¬ (("Fancy" : String) = "Classic" ∨ ("Fancy" : String) = "Modern"
      ∨ ("Fancy" : String) = "Creative"))
      ∧ format ⟨"N", "E", "P", "S, T", "X", "D", "Fancy"⟩
          = format ⟨"N", "E", "P", "S, T", "X", "D", "Classic"⟩ :=
  ⟨by decide, claim_C3 ⟨"N", "E", "P", "S, T", "X", "D", "Fancy"⟩ (by decide)⟩

/-- Claim C4: format is total over the entire input domain — for every
ResumeInput with arbitrary string fields it produces a result (it is a
total Lean function into String, so no exception can propagate). -/
theorem claim_C4 (r : ResumeInput) : ∃ out : String, format r = out :=
  ⟨format r, rfl⟩

/-- Claim C5: format is deterministic and pure — it is a function of its
input record alone, so equal inputs give equal output strings. -/
theorem claim_C5 (r1 r2 : ResumeInput) (h : r1 = r2) : format r1 = format r2 := by
  rw [h]

/-- Witness for claim C5 at a concrete pair of equal inputs. -/
theorem claim_C5_witness :
    ((⟨"a", "b", "c", "d", "e", "f", "Modern"⟩ : ResumeInput)
        = ⟨"a", "b", "c", "d", "e", "f", "Modern"⟩)
      ∧ format (⟨"a", "b", "c", "d", "e", "f", "Modern"⟩ : ResumeInput)
          = format ⟨"a", "b", "c", "d", "e", "f", "Modern"⟩ :=
  ⟨rfl, claim_C5 ⟨"a", "b", "c", "d", "e", "f", "Modern"⟩ _ rfl⟩

/-- Counterexample to claim C6 as stated: the list ["", " a"] has no entry
containing a comma, yet parsing the comma-joined string does not reproduce
it — the empty entry is dropped and the leading whitespace of " a" is
trimmed away. -/
theorem claim_C6_counterexample :
    (∀ x ∈ (["", " a"] : List String), ',' ∉ x.data)
      ∧ parseSkills (joinComma ["", " a"]) ≠ ["", " a"] := by
  decide

/-- Claim C6 (amended): for every list of skill strings in which no entry
contains a comma, every entry is nonempty, and every entry is already
clean (equal to its trimmed form), splitting the comma-joined string with
the formatter's skills parsing reproduces the list exactly. -/
theorem claim_C6_amended (l : List String)
    (hc : ∀ x ∈ l, ',' ∉ x.data)
    (hne : ∀ x ∈ l, x.data ≠ [])
    (ht : ∀ x ∈ l, trimChars x.data = x.data) :
    parseSkills (joinComma l) = l := by
  have hc2 : ∀ X ∈ l.map String.data, ',' ∉ X := by
    intro X hX
    obtain ⟨x, hx, hEq⟩ := List.mem_map.mp hX
    exact hEq ▸ hc x hx
  have hne2 : ∀ X ∈ l.map String.data, X ≠ [] := by
    intro X hX
    obtain ⟨x, hx, hEq⟩ := List.mem_map.mp hX
    exact hEq ▸ hne x hx
  have ht2 : ∀ X ∈ l.map String.data, trimChars X = X := by
    intro X hX
    obtain ⟨x, hx, hEq⟩ := List.mem_map.mp hX
    exact hEq ▸ ht x hx
  unfold parseSkills
  rw [joinComma_data, parse_join_chars (l.map String.data) hc2 hne2 ht2,
    List.map_map]
  have hid : ((fun t => String.mk t) ∘ String.data) = id := rfl
  rw [hid, List.map_id]

/-- Witness for the amended claim C6 at a concrete clean skill list. -/
theorem claim_C6_witness :
    (∀ x ∈ (["Python", "SQL", "Go"] : List String), ',' ∉ x.data)
      ∧ (∀ x ∈ (["Python", "SQL", "Go"] : List String), x.data ≠ [])
      ∧ (∀ x ∈ (["Python", "SQL", "Go"] : List String), trimChars x.data = x.data)
      ∧ parseSkills (joinComma ["Python", "SQL", "Go"]) = ["Python", "SQL", "Go"] :=
  ⟨by decide, by decide, by decide,
    claim_C6_amended ["Python", "SQL", "Go"] (by decide) (by decide) (by decide)⟩

/-- Claim C7: for every ResumeInput, format returns a (non-null) string;
when the name is non-empty the output contains the name verbatim, and when
email and phone are non-empty the output contains the combined email+phone
contact line verbatim. -/
theorem claim_C7 (r : ResumeInput) :
    (∃ out : String, format r = out)
      ∧ (r.name ≠ "" → strContains (format r) r.name)
      ∧ (r.email ≠ "" → r.phone ≠ "" →
          strContains (format r) (r.email ++ " | " ++ r.phone)) := by
  refine ⟨⟨format r, rfl⟩, fun _ => ?_, fun _ _ => ?_⟩
  · exact cio_strContains (format r) (sectionPieces r) r.name
      (format_pieces r) (by simp [sectionPieces])
  · exact cio_strContains (format r) (sectionPieces r)
      (r.email ++ " | " ++ r.phone) (format_pieces r)
      (by simp [sectionPieces, contactLine])

/-- Witness for claim C7 at a concrete input with non-empty fields. -/
theorem claim_C7_witness :
    (("Jane" : String) ≠ "") ∧ (("j@x" : String) ≠ "") ∧ (("555" : String) ≠ "")
      ∧ strContains (format ⟨"Jane", "j@x", "555", "a, b", "E", "D", "Creative"⟩)
          "Jane"
      ∧ strContains (format ⟨"Jane", "j@x", "555", "a, b", "E", "D", "Creative"⟩)
          (("j@x" : String) ++ " | " ++ "555") :=
  ⟨by decide, by decide, by decide,
    (claim_C7 ⟨"Jane", "j@x", "555", "a, b", "E", "D", "Creative"⟩).2.1 (by decide),
    (claim_C7 ⟨"Jane", "j@x", "555", "a, b", "E", "D", "Creative"⟩).2.2
      (by decide) (by decide)⟩

/-- Claim C8: for every ResumeInput whose skills string is empty, the
parsed skill list is empty, the rendered skills section content is the
empty string (no stray separators), and the output shows the Skills
heading followed directly by the blank-line separator and the Experience
heading. -/
theorem claim_C8 (r : ResumeInput) (h : r.skills = "") :
    parseSkills r.skills = []
      ∧ renderSkills (resolveStyle r.templateStyle) (parseSkills r.skills) = ""
      ∧ strContains (format r)
          (heading (resolveStyle r.templateStyle) "Skills" ++ "\n" ++ "\n\n"
            ++ heading (resolveStyle r.templateStyle) "Experience") := by
  have h1 : parseSkills r.skills = [] := by rw [h]; rfl
  have h2 : renderSkills (resolveStyle r.templateStyle) (parseSkills r.skills)
      = "" := by
    rw [h1]
    cases resolveStyle r.templateStyle <;> rfl
  refine ⟨h1, h2, ?_⟩
  refine ⟨r.name ++ "\n" ++ contactLine r ++ "\n\n",
    "\n" ++ r.experience ++ "\n\n"
      ++ heading (resolveStyle r.templateStyle) "Education" ++ "\n"
      ++ r.education ++ "\n", ?_⟩
  rw [format_eq, h2]
  simp only [String.append_assoc, str_empty_append]

/-- Witness for claim C8 at a concrete input with empty skills. -/
theorem claim_C8_witness :
    ((⟨"N", "E", "P", "", "X", "D", "Modern"⟩ : ResumeInput).skills = "")
      ∧ parseSkills (⟨"N", "E", "P", "", "X", "D", "Modern"⟩ : ResumeInput).skills
          = [] :=
  ⟨rfl, (claim_C8 ⟨"N", "E", "P", "", "X", "D", "Modern"⟩ rfl).1⟩

/-- Claim C9: on the Jane Doe example input with Modern style, the output
contains, in order, the header line "Jane Doe", the contact line combining
email and phone, the Modern Skills heading, the three bulleted entries
Python, SQL, Go in that order, the Modern Experience heading with
"Engineer at Acme", and the Modern Education heading with "BSc CS". -/
theorem claim_C9 :
    resolveStyle janeDoe.templateStyle = TemplateStyle.modern
      ∧ containsInOrder (format janeDoe)
          ["Jane Doe", "jane@x.com | 555-1234", "== Skills ==",
           "- Python", "- SQL", "- Go", "== Experience ==",
           "Engineer at Acme", "== Education ==", "BSc CS"] := by
  constructor
  · decide
  · have h1 := format_pieces janeDoe
    have h2 : sectionPieces janeDoe
        = ["Jane Doe", "jane@x.com | 555-1234", "== Skills ==",
           "- Python\n- SQL\n- Go", "== Experience ==", "Engineer at Acme",
           "== Education ==", "BSc CS"] := by decide
    rw [h2] at h1
    have h3 : containsInOrder "- Python\n- SQL\n- Go"
        ["- Python", "- SQL", "- Go"] :=
      ⟨"", "\n- SQL\n- Go", by decide, "\n", "\n- Go", by decide,
        "\n", "", by decide, trivial⟩
    exact cio_expand (format janeDoe)
      ["Jane Doe", "jane@x.com | 555-1234", "== Skills =="]
      "- Python\n- SQL\n- Go"
      ["- Python", "- SQL", "- Go"]
      ["== Experience ==", "Engineer at Acme", "== Education ==", "BSc CS"]
      h1 h3

/-- Claim C10: clicking Generate invokes the handler with exactly the seven
form values in the order (name, email, phone, skills, experience,
education, template); the returned string becomes the sole new value of
the output textbox and no other UI state is written. -/
theorem claim_C10
    (fn : String → String → String → String → String → String → String → String)
    (st : UIState) :
    (generate_btn_click fn st).output
        = fn st.name st.email st.phone st.skills st.experience st.education
            st.template
      ∧ (generate_btn_click fn st).name = st.name
      ∧ (generate_btn_click fn st).email = st.email
      ∧ (generate_btn_click fn st).phone = st.phone
      ∧ (generate_btn_click fn st).skills = st.skills
      ∧ (generate_btn_click fn st).experience = st.experience
      ∧ (generate_btn_click fn st).education = st.education
      ∧ (generate_btn_click fn st).template = st.template :=
  ⟨rfl, rfl, rfl, rfl, rfl, rfl, rfl, rfl⟩

end ResumeBuilder
